import Mathlib

/-!
Verification of the editor service layer (`src/renderer/services/editor.ts`).

The service wraps an editor widget whose text buffer is addressed by
1-indexed line/column coordinates.  The buffer is modelled as a list of
lines (each line a list of characters; the source counts UTF-16 code
units, modelled here as characters) together with the stored end-of-line
kind.  Edits are modelled after the widget's `executeEdits` contract: the
range is validated (each endpoint snapped into the buffer the way the
widget's `validatePosition` does: a line above the line count snaps to the
end of the last line) and the inserted text is split into lines on any
line-terminator form.  Explicit `setPosition` calls are modelled (the
widget validates the requested position the same way); the cursor side
effect of a bare edit is not modelled, because
every caret-relevant operation of the service issues an explicit
`setPosition` after its edit.  Widget getters that raise on out-of-range
coordinates (`getLineContent`, `getLineLength`) are modelled in `Except`.
-/

set_option autoImplicit false

/-- Text is a sequence of characters. -/
abbrev Text := List Char

/-- The characters of a string literal. -/
def strT (s : String) : Text := s.data

/-- A stored buffer line contains no line terminator. -/
def noTerm (l : Text) : Prop := '\n' ∉ l ∧ '\r' ∉ l

instance (l : Text) : Decidable (noTerm l) := by unfold noTerm; infer_instance

/-- Prepend a character onto the first chunk of a chunk list. -/
def consHead (c : Char) : List Text → List Text
  | [] => [[c]]
  | l :: ls => (c :: l) :: ls

/-- Split text into lines at each terminator (CRLF, CR or LF); this is how
the widget normalizes inserted text when applying an edit. -/
def splitLines : Text → List Text
  | [] => [[]]
  | '\r' :: '\n' :: cs => [] :: splitLines cs
  | '\r' :: cs => [] :: splitLines cs
  | '\n' :: cs => [] :: splitLines cs
  | c :: cs => consHead c (splitLines cs)

/-- Join chunks with a separator. -/
def joinWith (sep : Text) : List Text → Text
  | [] => []
  | [l] => l
  | l :: ls => l ++ sep ++ joinWith sep ls

/-- The widget's text buffer: the stored lines plus the stored end-of-line
kind (`crlf = true` means the buffer stores CRLF terminators). -/
structure TextModel where
  lines : List Text
  crlf : Bool
deriving DecidableEq

/-- Well-formed buffer: at least one line (the widget's invariant) and no
terminator characters inside a stored line. -/
def TextModel.WF (m : TextModel) : Prop := m.lines ≠ [] ∧ ∀ l ∈ m.lines, noTerm l

instance (m : TextModel) : Decidable m.WF := by unfold TextModel.WF; infer_instance

/-- `model.getLineCount()`. -/
def lineCount (m : TextModel) : Nat := m.lines.length

/-- Length of a stored line (`0` for an out-of-range line). -/
def getLineLen (m : TextModel) (line : Nat) : Nat := (m.lines.getD (line - 1) []).length

inductive EdError where
  | outOfRange
deriving DecidableEq

/-- `model.getLineLength(line)`: the widget raises for a line outside
`1..lineCount`. -/
def getLineLengthE (m : TextModel) (line : Nat) : Except EdError Nat :=
  if 1 ≤ line ∧ line ≤ lineCount m then .ok (getLineLen m line) else .error .outOfRange

/-- `model.validatePosition`: a position whose line is below 1 snaps to
`(1, 1)`; a position whose line exceeds the line count snaps to the end of
the last line (its max column); otherwise the column is clamped into
`1..lineLength+1`. -/
def clampPos (m : TextModel) (p : Nat × Nat) : Nat × Nat :=
  if p.1 < 1 then (1, 1)
  else if lineCount m < p.1 then (lineCount m, getLineLen m (lineCount m) + 1)
  else (p.1, min (max p.2 1) (getLineLen m p.1 + 1))

structure ERange where
  startLine : Nat
  startCol : Nat
  endLine : Nat
  endCol : Nat
deriving DecidableEq

/-- `new monaco.Range(...)`: the constructor swaps the two endpoints when
they are given in reverse order. -/
def mkRange (sl sc el ec : Nat) : ERange :=
  if sl > el ∨ (sl = el ∧ sc > ec) then ⟨el, ec, sl, sc⟩ else ⟨sl, sc, el, ec⟩

/-- `model.validateRange`: clamp both endpoints into the buffer. -/
def validateRange (m : TextModel) (r : ERange) : ERange :=
  let s := clampPos m (r.startLine, r.startCol)
  let e := clampPos m (r.endLine, r.endCol)
  ⟨s.1, s.2, e.1, e.2⟩

/-- Append a suffix onto the last chunk of a chunk list. -/
def addSuffix (suf : Text) : List Text → List Text
  | [] => [suf]
  | [l] => [l ++ suf]
  | l :: ls => l :: addSuffix suf ls

/-- Splice the kept flanks of the replaced region onto the inserted lines. -/
def withFlanks (pre suf : Text) : List Text → List Text
  | [] => [pre ++ suf]
  | [l] => [pre ++ l ++ suf]
  | l :: ls => (pre ++ l) :: addSuffix suf ls

/-- `executeEdits` with a single `{ range, text }` edit: the range is
validated, the inserted text is split into lines, and the buffer text in
the range is replaced. -/
def applyEdit (m : TextModel) (r : ERange) (text : Text) : TextModel :=
  let r := validateRange m r
  let pre := (m.lines.getD (r.startLine - 1) []).take (r.startCol - 1)
  let suf := (m.lines.getD (r.endLine - 1) []).drop (r.endCol - 1)
  let mid := withFlanks pre suf (splitLines text)
  { m with lines := m.lines.take (r.startLine - 1) ++ mid ++ m.lines.drop r.endLine }

/-- The stored end-of-line text. -/
def eolText (m : TextModel) : Text := if m.crlf then ['\r', '\n'] else ['\n']

/-- `model.getValue(EndOfLinePreference.LF)`: line terminators normalized to
line feed, regardless of the stored end-of-line kind. -/
def TextModel.getValueLF (m : TextModel) : Text := joinWith ['\n'] m.lines

/-- `model.getValue()`: the stored end-of-line form. -/
def TextModel.getValueRaw (m : TextModel) : Text := joinWith (eolText m) m.lines

/-- `model.getValueInRange(range)` (stored end-of-line form). -/
def getValueInRange (m : TextModel) (r : ERange) : Text :=
  let r := validateRange m r
  if r.startLine = r.endLine then
    ((m.lines.getD (r.startLine - 1) []).take (r.endCol - 1)).drop (r.startCol - 1)
  else
    joinWith (eolText m)
      ([(m.lines.getD (r.startLine - 1) []).drop (r.startCol - 1)]
        ++ ((m.lines.drop r.startLine).take (r.endLine - 1 - r.startLine))
        ++ [(m.lines.getD (r.endLine - 1) []).take (r.endCol - 1)])

/-- The live editor: its buffer and the caret position. -/
structure EditorState where
  model : TextModel
  caret : Nat × Nat
deriving DecidableEq

/-- `editor.setPosition(p)`: the widget validates (clamps) the position. -/
def setPosition (st : EditorState) (p : Nat × Nat) : EditorState :=
  { st with caret := clampPos st.model p }

/-- `replaceLine(line, text)`: reads the line's current length (raising when
`line` is out of range), replaces columns `1..length+1` of the line with
`text`, then sets the caret to `(line, text.length + 1)`. -/
def replaceLine (st : EditorState) (line : Nat) (text : Text) :
    Except EdError EditorState := do
  let length ← getLineLengthE st.model line
  let m := applyEdit st.model (mkRange line 1 line (length + 1)) text
  pure (setPosition { st with model := m } (line, text.length + 1))

/-- `replaceLines(lineStart, lineEnd, text)`: reads `lineEnd`'s current
length (raising when `lineEnd` is out of range), replaces the range from
`(lineStart, 1)` to `(lineEnd, length+1)` with `text`, then sets the caret
to `(lineEnd, length + 1)`. -/
def replaceLines (st : EditorState) (lineStart lineEnd : Nat) (text : Text) :
    Except EdError EditorState := do
  let lineEndPos := (← getLineLengthE st.model lineEnd) + 1
  let m := applyEdit st.model (mkRange lineStart 1 lineEnd lineEndPos) text
  pure (setPosition { st with model := m } (lineEnd, lineEndPos))

/-- `deleteLine(line)`: replaces the range from `(line, 1)` to
`(line + 1, 1)` with empty text and sets the caret to `(line, 1)`.  It
performs no length read, so no widget call raises; a result is always
returned. -/
def deleteLine (st : EditorState) (line : Nat) : Except EdError EditorState :=
  let m := applyEdit st.model (mkRange line 1 (line + 1) 1) []
  .ok (setPosition { st with model := m } (line, 1))

/-- `getLineContent(line)`: the widget raises for an out-of-range line. -/
def getLineContent (st : EditorState) (line : Nat) : Except EdError Text :=
  if 1 ≤ line ∧ line ≤ lineCount st.model then .ok (st.model.lines.getD (line - 1) [])
  else .error .outOfRange

/-- `getLinesContent(lineStart, lineEnd)`: reads `lineEnd`'s length (raising
when `lineEnd` is out of range) and returns the buffer text from
`(lineStart, 1)` to `(lineEnd, length + 1)`. -/
def getLinesContent (st : EditorState) (lineStart lineEnd : Nat) :
    Except EdError Text := do
  let lineEndLength ← getLineLengthE st.model lineEnd
  pure (getValueInRange st.model (mkRange lineStart 1 lineEnd (lineEndLength + 1)))

/-- `getValue()`: line-feed normalized full buffer content. -/
def getValue (st : EditorState) : Text := st.model.getValueLF

/-- `setValue(text)`: a single edit replacing the range from `(1, 1)` to
`(lineCount, lastLineLength + 1)` — the entire buffer — with `text`. -/
def setValue (st : EditorState) (text : Text) : EditorState :=
  let maxLine := lineCount st.model
  let endLineLength := getLineLen st.model maxLine
  { st with model := applyEdit st.model (mkRange 1 1 maxLine (endLineLength + 1)) text }

/-- JavaScript GetSubstitution for a string pattern: expand the escapes in
the replacement — `$$` (a dollar), `$&` (the matched text, which for a
string pattern is the pattern itself), `$` + backquote (the part of the
subject before the match) and `$` + apostrophe (the part after the match).
Any other `$` is literal; a string pattern has no capture groups, so digit
and named references also stay literal, as the JavaScript spec requires. -/
def getSubstitution (m b a : Text) : Text → Text
  | [] => []
  | '$' :: '$' :: rest => '$' :: getSubstitution m b a rest
  | '$' :: '&' :: rest => m ++ getSubstitution m b a rest
  | '$' :: '\x60' :: rest => b ++ getSubstitution m b a rest
  | '$' :: '\x27' :: rest => a ++ getSubstitution m b a rest
  | c :: rest => c :: getSubstitution m b a rest

/-- The scan of `String.prototype.replace`: `pre` accumulates the part of
the subject already passed (the text before the current position); at the
first match the replacement is expanded with GetSubstitution and the rest
of the subject is kept. -/
def replaceFirstAux (p v : Text) : Text → Text → Text
  | pre, [] => if List.isPrefixOf p [] then getSubstitution p pre [] v else []
  | pre, c :: cs =>
    if List.isPrefixOf p (c :: cs) then
      getSubstitution p pre (List.drop p.length (c :: cs)) v ++
        List.drop p.length (c :: cs)
    else c :: replaceFirstAux p v (pre ++ [c]) cs

/-- JavaScript `content.replace(search, val)` for a string pattern: at most
the first occurrence is replaced, with `$`-escapes in the replacement
expanded (the text is returned unchanged when the pattern does not
occur). -/
def replaceFirst (p v c : Text) : Text := replaceFirstAux p v [] c

/-- Greedy left-to-right split of a text at each occurrence of a nonempty
pattern; this is the scan `replaceAll` performs. -/
def splitSeq (p : Text) : Text → List Text
  | [] => [[]]
  | c :: cs =>
    if p ≠ [] ∧ List.isPrefixOf p (c :: cs) then
      [] :: splitSeq p (cs.drop (p.length - 1))
    else consHead c (splitSeq p cs)
termination_by t => t.length
decreasing_by
  · simp only [List.length_drop, List.length_cons]; omega
  · simp

/-- The scan of `String.prototype.replaceAll` for a nonempty string
pattern: `pre` accumulates the original text already passed; each match is
replaced by its GetSubstitution expansion (whose before/after parts are
relative to the whole subject), scanning left to right without overlap. -/
def replaceAllAux (p v : Text) : Text → Text → Text
  | _, [] => []
  | pre, ch :: cs =>
    if p ≠ [] ∧ List.isPrefixOf p (ch :: cs) then
      getSubstitution p pre (cs.drop (p.length - 1)) v ++
        replaceAllAux p v (pre ++ p) (cs.drop (p.length - 1))
    else ch :: replaceAllAux p v (pre ++ [ch]) cs
termination_by _ t => t.length
decreasing_by
  · simp only [List.length_drop, List.length_cons]; omega
  · simp

/-- `replaceAll` with the empty pattern: it matches once at every position
of the subject, inserting the expanded replacement there. -/
def replaceAllEmptyAux (v : Text) : Text → Text → Text
  | pre, [] => getSubstitution [] pre [] v
  | pre, ch :: cs =>
    getSubstitution [] pre (ch :: cs) v ++ ch :: replaceAllEmptyAux v (pre ++ [ch]) cs

/-- JavaScript `content.replaceAll(search, val)` for a string pattern:
every occurrence is replaced, with `$`-escapes in the replacement expanded;
the empty pattern matches once at every position. -/
def replaceAllStr (p v c : Text) : Text :=
  if p = [] then replaceAllEmptyAux v [] c
  else replaceAllAux p v [] c

/-- Chunks of the greedy split joined by the per-match GetSubstitution
expansions: `pre` is the original text before the current chunk, and the
part of the subject after a match is the remaining chunks joined by the
pattern.  This is the shape of a completed `replaceAll`. -/
def joinSubs (p v : Text) : Text → List Text → Text
  | _, [] => []
  | _, [u] => u
  | pre, u :: us =>
    u ++ getSubstitution p (pre ++ u) (joinWith p us) v ++
      joinSubs p v (pre ++ u ++ p) us

/-- `replaceValue(search, val, replaceAll)`: reads the full value, performs
the substitution, and writes the result back with a single `setValue`. -/
def replaceValue (st : EditorState) (search val : Text) (replaceAll : Bool) :
    EditorState :=
  let content := st.model.getValueRaw
  let text := if replaceAll then replaceAllStr search val content
              else replaceFirst search val content
  setValue st text

/-- Modelled from the spec: the reactive store collaborator
(`@fe/support/store`, not under src/).  Per §6 it exposes `state.wordWrap`
and `state.typewriterMode` and `commit(mutation, value)`; committing a
mutation sets the named field. -/
structure StoreState where
  wordWrap : String
  typewriterMode : Bool
deriving DecidableEq

inductive StoreCommit where
  | setWordWrap (v : String)
  | setTypewriterMode (v : Bool)
deriving DecidableEq

/-- Modelled from the spec: applying one committed mutation to the store. -/
def applyCommit (st : StoreState) : StoreCommit → StoreState
  | .setWordWrap v => { st with wordWrap := v }
  | .setTypewriterMode v => { st with typewriterMode := v }

def applyCommits (st : StoreState) (cs : List StoreCommit) : StoreState :=
  cs.foldl applyCommit st

/-- The fields of the widget's `wrappingInfo` option read by `toggleWrap`. -/
structure WrappingInfo where
  isDominatedByLongLines : Bool
  isViewportWrapping : Bool
deriving DecidableEq

structure Toast where
  kind : String
  message : String
deriving DecidableEq

/-- `toggleWrap()`: the store commits and the toasts one call issues. -/
def toggleWrap (wrapInfo : WrappingInfo) : List StoreCommit × List Toast :=
  let isWrapping := wrapInfo.isViewportWrapping
  if wrapInfo.isDominatedByLongLines then
    ([], [⟨"warning", "Word warp dominated by long lines"⟩])
  else
    ([.setWordWrap (if isWrapping then "off" else "on")], [])

/-- `toggleTypewriterMode()`: the single commit one call issues. -/
def toggleTypewriterMode (st : StoreState) : List StoreCommit :=
  [.setTypewriterMode (!st.typewriterMode)]

/-- A cursor-position-change event: its source, reason code and the new
position. -/
structure CursorEvent where
  source : String
  reason : Nat
  position : Nat × Nat
deriving DecidableEq

def typewriterSources : List String := ["deleteLeft", "keyboard"]

/-- The `onDidChangeCursorPosition` handler: the reveal-centered commands it
issues for one event (the positions passed to `revealPositionInCenter`). -/
def cursorPositionCommands (typewriterMode : Bool) (e : CursorEvent) :
    List (Nat × Nat) :=
  if typewriterMode then
    if typewriterSources.contains e.source && (e.reason == 0 || e.reason == 3) then
      [e.position]
    else []
  else []

/-- The MONACO_READY/EDITOR_READY payload: the two widget handles (opaque,
modelled as numbers; in the source they are objects, hence always truthy). -/
structure Handles where
  monaco : Nat
  editor : Nat
deriving DecidableEq

/-- Modelled from the spec: the hook bus (`@fe/core/hook`, not under src/)
per §4.1, restricted to this module's EDITOR_READY subscribers — each one a
promise resolver registered by `whenEditorReady` with `once := true`.  The
module state holds the two handle variables (`none` = still undefined), the
EDITOR_READY subscriber list (promise id, once flag) and the promises
created so far (`none` = pending). -/
structure ModuleState where
  monaco : Option Nat
  editor : Option Nat
  editorReadyHandlers : List (Nat × Bool)
  promises : List (Nat × Option Handles)
  nextPid : Nat
deriving DecidableEq

def getMonaco (s : ModuleState) : Option Nat := s.monaco

def getEditor (s : ModuleState) : Option Nat := s.editor

/-- `whenEditorReady()`: when both handles are bound, the returned promise
is created already resolved with them; otherwise a pending promise is
created and its resolver registered on EDITOR_READY with `once := true`.
Returns the new promise's id together with the updated module state. -/
def whenEditorReady (s : ModuleState) : Nat × ModuleState :=
  match s.monaco, s.editor with
  | some m, some e =>
    (s.nextPid, { s with promises := s.promises ++ [(s.nextPid, some ⟨m, e⟩)],
                         nextPid := s.nextPid + 1 })
  | _, _ =>
    (s.nextPid, { s with promises := s.promises ++ [(s.nextPid, none)],
                         editorReadyHandlers := s.editorReadyHandlers ++ [(s.nextPid, true)],
                         nextPid := s.nextPid + 1 })

/-- Resolve a promise with a value (the first resolution wins, as for a
JavaScript promise). -/
def resolveP (ps : List (Nat × Option Handles)) (pid : Nat) (h : Handles) :
    List (Nat × Option Handles) :=
  ps.map fun q => if q.1 = pid ∧ q.2 = none then (q.1, some h) else q

/-- Modelled from the spec: `triggerHook('EDITOR_READY', payload)` per §4.1
— handlers run in registration order and a `once` handler is deregistered
after its single invocation. -/
def runEditorReadyHandlers (payload : Handles) :
    List (Nat × Bool) → List (Nat × Option Handles) →
    List (Nat × Bool) × List (Nat × Option Handles)
  | [], ps => ([], ps)
  | (pid, once) :: rest, ps =>
    let ps2 := resolveP ps pid payload
    let r := runEditorReadyHandlers payload rest ps2
    (if once then r.1 else (pid, once) :: r.1, r.2)

def triggerEditorReady (s : ModuleState) (payload : Handles) : ModuleState :=
  let r := runEditorReadyHandlers payload s.editorReadyHandlers s.promises
  { s with editorReadyHandlers := r.1, promises := r.2 }

/-- The MONACO_READY hook handler: binds the module handle variables, then
triggers EDITOR_READY with the same payload. -/
def monacoReadyHandler (s : ModuleState) (payload : Handles) : ModuleState :=
  triggerEditorReady
    { s with monaco := some payload.monaco, editor := some payload.editor } payload

/-- The resolution state of a created promise (`some none` = pending,
`some (some h)` = resolved with `h`, `none` = no such promise). -/
def promiseValue (s : ModuleState) (pid : Nat) : Option (Option Handles) :=
  s.promises.lookup pid

/-- Freshness of promise ids: every created promise has an id below the
next-id counter. -/
def PromisesWF (s : ModuleState) : Prop := ∀ x ∈ s.promises, x.1 < s.nextPid

/-- The operations of the module that run against the module state: a
`whenEditorReady` call, the MONACO_READY handler, and the other registered
handlers (which call `whenEditorReady` themselves or do not touch the
module's state). -/
inductive MOp where
  | whenReady
  | monacoReady (payload : Handles)
  | monacoChangeValue
  | themeChange
  | wordWrapChanged
  | settingFetched
  | settingChanged (changedKeys : List String)
deriving DecidableEq

def stepM (s : ModuleState) : MOp → ModuleState
  | .whenReady => (whenEditorReady s).2
  | .monacoReady p => monacoReadyHandler s p
  | .monacoChangeValue => s
  | .themeChange => s
  | .wordWrapChanged => (whenEditorReady s).2
  | .settingFetched => (whenEditorReady s).2
  | .settingChanged _ => (whenEditorReady s).2

def runM (s : ModuleState) : List MOp → ModuleState
  | [] => s
  | op :: ops => runM (stepM s op) ops

/-- Both handle variables are bound. -/
def isBound (s : ModuleState) : Prop :=
  (getMonaco s).isSome = true ∧ (getEditor s).isSome = true

/-- The sample 3-line buffer "a\nb\nc" used by the spec's scenarios. -/
def sample3 : EditorState :=
  { model := { lines := [strT "a", strT "b", strT "c"], crlf := false },
    caret := (1, 1) }

/-- The position just after text inserted at `(lineStart, 1)`: the end of
the replaced region once the edit is applied. -/
def insertionEnd (lineStart : Nat) (text : Text) : Nat × Nat :=
  (lineStart + (splitLines text).length - 1, ((splitLines text).getLastD []).length + 1)

/-- Module state before any binding: both handles undefined, no subscribers,
no promises. -/
def s0 : ModuleState :=
  { monaco := none, editor := none, editorReadyHandlers := [], promises := [], nextPid := 0 }

/-- A module state in which both handles are bound. -/
def sBound : ModuleState :=
  { monaco := some 1, editor := some 2, editorReadyHandlers := [], promises := [], nextPid := 0 }

theorem consHead_ne_nil (c : Char) (L : List Text) : consHead c L ≠ [] := by
  cases L <;> simp [consHead]

theorem splitLines_ne_nil (t : Text) : splitLines t ≠ [] := by
  unfold splitLines
  split <;> simp [consHead_ne_nil]

theorem splitLines_cons_ne (c : Char) (cs : Text) (h1 : c ≠ '\r') (h2 : c ≠ '\n') :
    splitLines (c :: cs) = consHead c (splitLines cs) := by
  conv_lhs => unfold splitLines
  split <;> simp_all

theorem splitLines_single (l : Text) (h : noTerm l) : splitLines l = [l] := by
  induction l with
  | nil => rfl
  | cons c cs ih =>
    obtain ⟨h1, h2⟩ := h
    simp only [List.mem_cons, not_or] at h1 h2
    rw [splitLines_cons_ne c cs (fun hc => h2.1 hc.symm) (fun hc => h1.1 hc.symm)]
    rw [ih ⟨h1.2, h2.2⟩]
    rfl

theorem splitLines_line_append (l rest : Text) (h : noTerm l) :
    splitLines (l ++ '\n' :: rest) = l :: splitLines rest := by
  induction l with
  | nil =>
    show splitLines ('\n' :: rest) = [] :: splitLines rest
    rfl
  | cons c cs ih =>
    obtain ⟨h1, h2⟩ := h
    simp only [List.mem_cons, not_or] at h1 h2
    rw [List.cons_append,
      splitLines_cons_ne c _ (fun hc => h2.1 hc.symm) (fun hc => h1.1 hc.symm),
      ih ⟨h1.2, h2.2⟩]
    rfl

theorem splitLines_joinWith (L : List Text) (hne : L ≠ [])
    (h : ∀ l ∈ L, noTerm l) : splitLines (joinWith ['\n'] L) = L := by
  induction L with
  | nil => exact absurd rfl hne
  | cons l ls ih =>
    cases ls with
    | nil => exact splitLines_single l (h l (by simp))
    | cons l2 ls2 =>
      have hj : joinWith ['\n'] (l :: l2 :: ls2) = l ++ '\n' :: joinWith ['\n'] (l2 :: ls2) := by
        simp [joinWith]
      rw [hj, splitLines_line_append l _ (h l (by simp)),
        ih (by simp) (fun x hx => h x (by simp [hx]))]

theorem addSuffix_nil (L : List Text) (h : L ≠ []) : addSuffix [] L = L := by
  induction L with
  | nil => exact absurd rfl h
  | cons l ls ih =>
    cases ls with
    | nil => simp [addSuffix]
    | cons l2 ls2 =>
      rw [show addSuffix [] (l :: l2 :: ls2) = l :: addSuffix [] (l2 :: ls2) from rfl,
        ih (by simp)]

theorem withFlanks_nil_nil (L : List Text) (h : L ≠ []) : withFlanks [] [] L = L := by
  cases L with
  | nil => exact absurd rfl h
  | cons l ls =>
    cases ls with
    | nil => simp [withFlanks]
    | cons l2 ls2 =>
      rw [show withFlanks [] [] (l :: l2 :: ls2) = ([] ++ l) :: addSuffix [] (l2 :: ls2) from rfl,
        addSuffix_nil _ (by simp)]
      simp

/-- Claim C8 counterexample: on the 3-line buffer, `deleteLine(5)` does not
fail with an OutOfRange condition — the widget validates the range, the
call returns normally, the buffer is unchanged and the caret is snapped to
`(3, 2)`, the end of the last line. -/
theorem c8_counterexample :
    deleteLine sample3 5 = .ok { model := sample3.model, caret := (3, 2) } := by
  rfl

/-- Claim C8 (amended): a line argument beyond the buffer fails with
OutOfRange for the operations that read the addressed line's content or
length (`getLineContent`, `replaceLine`, and `getLinesContent` /
`replaceLines` for the length-read end line); `deleteLine` performs no such
read and never raises — the widget silently validates (snaps) its range. -/
theorem c8_amended (st : EditorState) (ls line : Nat) (text : Text)
    (h : ¬(1 ≤ line ∧ line ≤ lineCount st.model)) :
    getLineContent st line = .error .outOfRange ∧
    replaceLine st line text = .error .outOfRange ∧
    replaceLines st ls line text = .error .outOfRange ∧
    getLinesContent st ls line = .error .outOfRange ∧
    ∀ l, ∃ st2, deleteLine st l = .ok st2 := by
  refine ⟨?_, ?_, ?_, ?_, fun l => ⟨_, rfl⟩⟩ <;>
    simp [getLineContent, replaceLine, replaceLines, getLinesContent, getLineLengthE, h,
      Except.bind]

theorem c8_amended_witness :
    getLineContent sample3 4 = .error .outOfRange ∧
    replaceLine sample3 4 (strT "x") = .error .outOfRange ∧
    replaceLines sample3 1 4 (strT "x") = .error .outOfRange ∧
    getLinesContent sample3 1 4 = .error .outOfRange ∧
    ∀ l, ∃ st2, deleteLine sample3 l = .ok st2 :=
  c8_amended sample3 1 4 (strT "x") (by decide)

/-- Claim C3: when the wrapping info reports `isDominatedByLongLines`,
`toggleWrap` commits no store mutation (the store state is unchanged) and
shows exactly one warning toast; otherwise it commits `setWordWrap` with
"off" when the viewport is wrapping and "on" otherwise, and shows no
toast. -/
theorem c3_toggleWrap (wi : WrappingInfo) (st : StoreState) :
    (wi.isDominatedByLongLines = true →
      (toggleWrap wi).1 = [] ∧
      applyCommits st (toggleWrap wi).1 = st ∧
      (toggleWrap wi).2 = [⟨"warning", "Word warp dominated by long lines"⟩]) ∧
    (wi.isDominatedByLongLines = false →
      (toggleWrap wi).1 =
        [.setWordWrap (if wi.isViewportWrapping then "off" else "on")] ∧
      (toggleWrap wi).2 = []) := by
  constructor <;> intro h <;> simp [toggleWrap, h, applyCommits]

theorem c3_toggleWrap_witness :
    ((toggleWrap ⟨true, false⟩).1 = [] ∧
      applyCommits ⟨"on", false⟩ (toggleWrap ⟨true, false⟩).1 = ⟨"on", false⟩ ∧
      (toggleWrap ⟨true, false⟩).2 = [⟨"warning", "Word warp dominated by long lines"⟩]) ∧
    ((toggleWrap ⟨false, true⟩).1 = [.setWordWrap "off"] ∧
      (toggleWrap ⟨false, true⟩).2 = []) :=
  ⟨(c3_toggleWrap ⟨true, false⟩ ⟨"on", false⟩).1 rfl,
    (c3_toggleWrap ⟨false, true⟩ ⟨"on", false⟩).2 rfl⟩

/-- Claim C10: `toggleTypewriterMode` commits exactly the boolean negation
of `state.typewriterMode`, changes no other store field, and applying it
twice restores the original store state. -/
theorem c10_toggleTypewriterMode (st : StoreState) :
    toggleTypewriterMode st = [.setTypewriterMode (!st.typewriterMode)] ∧
    (applyCommits st (toggleTypewriterMode st)).typewriterMode = !st.typewriterMode ∧
    (applyCommits st (toggleTypewriterMode st)).wordWrap = st.wordWrap ∧
    applyCommits (applyCommits st (toggleTypewriterMode st))
      (toggleTypewriterMode (applyCommits st (toggleTypewriterMode st))) = st := by
  refine ⟨rfl, rfl, rfl, ?_⟩
  simp [toggleTypewriterMode, applyCommits, applyCommit]

/-- Claim C7: with typewriter mode on, a cursor event issues the
reveal-centered command exactly when its source is in the allow-list
(`deleteLeft`, `keyboard`) and its reason code is 0 or 3; a keyboard
content-change event issues the command, a mouse event never does, and with
typewriter mode off no event does. -/
theorem c7_typewriter (tm : Bool) (e : CursorEvent) :
    (cursorPositionCommands tm e ≠ [] ↔
      tm = true ∧ (e.source = "deleteLeft" ∨ e.source = "keyboard") ∧
        (e.reason = 0 ∨ e.reason = 3)) ∧
    (tm = true → e.source = "keyboard" → e.reason = 0 →
      cursorPositionCommands tm e = [e.position]) ∧
    (e.source = "mouse" → cursorPositionCommands tm e = []) ∧
    cursorPositionCommands false e = [] := by
  refine ⟨?_, ?_, ?_, ?_⟩
  · cases tm with
    | false => simp [cursorPositionCommands]
    | true =>
      simp only [cursorPositionCommands, if_true]
      have hcontains : (typewriterSources.contains e.source = true) ↔
          (e.source = "deleteLeft" ∨ e.source = "keyboard") := by
        simp [typewriterSources, List.contains_eq_any_beq]
      by_cases hs : typewriterSources.contains e.source &&
          (e.reason == 0 || e.reason == 3)
      · rw [if_pos hs]
        simp only [Bool.and_eq_true, Bool.or_eq_true, beq_iff_eq, hcontains] at hs
        simp [hs]
      · rw [if_neg hs]
        simp only [Bool.and_eq_true, Bool.or_eq_true, beq_iff_eq, hcontains,
          not_and_or, not_or] at hs
        rcases hs with h | h
        · simp [h]
        · simp [h]
  · intro htm hsrc hr
    subst htm
    simp [cursorPositionCommands, typewriterSources, hsrc, hr]
  · intro hsrc
    cases tm <;> simp [cursorPositionCommands, typewriterSources, hsrc]
  · rfl

theorem c7_typewriter_witness :
    cursorPositionCommands true ⟨"keyboard", 0, (5, 7)⟩ = [(5, 7)] ∧
    cursorPositionCommands true ⟨"mouse", 0, (5, 7)⟩ = [] :=
  ⟨(c7_typewriter true ⟨"keyboard", 0, (5, 7)⟩).2.1 rfl rfl rfl,
    (c7_typewriter true ⟨"mouse", 0, (5, 7)⟩).2.2.1 rfl⟩

theorem exceptBind_ok {ε α β : Type} (a : α) (f : α → Except ε β) :
    (Except.ok a >>= f) = f a := rfl

theorem clampPos_of_valid (m : TextModel) (line col : Nat)
    (h1 : 1 ≤ line) (h2 : line ≤ lineCount m) (h3 : 1 ≤ col)
    (h4 : col ≤ getLineLen m line + 1) :
    clampPos m (line, col) = (line, col) := by
  simp only [clampPos]
  rw [if_neg (by omega), if_neg (by omega)]
  simp only [Prod.mk.injEq, true_and]
  omega

theorem validateRange_of_valid (m : TextModel) (sl sc el ec : Nat)
    (hs : clampPos m (sl, sc) = (sl, sc)) (he : clampPos m (el, ec) = (el, ec)) :
    validateRange m ⟨sl, sc, el, ec⟩ = ⟨sl, sc, el, ec⟩ := by
  simp [validateRange, hs, he]

theorem mkRange_of_le (sl sc el ec : Nat) (h : sl < el ∨ (sl = el ∧ sc ≤ ec)) :
    mkRange sl sc el ec = ⟨sl, sc, el, ec⟩ := by
  rw [mkRange, if_neg]
  omega

/-- Claim C4: for `1 â¤ k < N`, `deleteLine(k)` leaves `N - 1` lines,
`getLineContent(k)` afterwards returns what was line `k + 1`, and the caret
is at `(k, 1)`. -/
theorem c4_deleteLine (st : EditorState) (k : Nat) (hWF : st.model.WF)
    (h1 : 1 ≤ k) (h2 : k < lineCount st.model) :
    ∃ st2, deleteLine st k = .ok st2 ∧
      lineCount st2.model = lineCount st.model - 1 ∧
      getLineContent st2 k = .ok (st.model.lines.getD k []) ∧
      st2.caret = (k, 1) := by
  obtain ⟨⟨L, eol⟩, car⟩ := st
  have h2' : k < L.length := h2
  have hLC : lineCount ⟨L, eol⟩ = L.length := rfl
  have hcs : clampPos ⟨L, eol⟩ (k, 1) = (k, 1) :=
    clampPos_of_valid _ _ _ h1 (by rw [hLC]; omega) (by omega) (by omega)
  have hce : clampPos ⟨L, eol⟩ (k + 1, 1) = (k + 1, 1) :=
    clampPos_of_valid _ _ _ (by omega) (by rw [hLC]; omega) (by omega) (by omega)
  have hedit : applyEdit ⟨L, eol⟩ (mkRange k 1 (k + 1) 1) [] =
      ⟨L.take (k - 1) ++ [L.getD k []] ++ L.drop (k + 1), eol⟩ := by
    rw [mkRange_of_le _ _ _ _ (Or.inl (by omega))]
    simp only [applyEdit, validateRange_of_valid _ _ _ _ _ hcs hce]
    simp [splitLines, withFlanks, Nat.add_sub_cancel]
  have hcount : lineCount (⟨L.take (k - 1) ++ [L.getD k []] ++ L.drop (k + 1), eol⟩ : TextModel) =
      L.length - 1 := by
    simp only [lineCount, List.length_append, List.length_take, List.length_cons,
      List.length_nil, List.length_drop]
    omega
  have hclamp2 : clampPos ⟨L.take (k - 1) ++ [L.getD k []] ++ L.drop (k + 1), eol⟩ (k, 1) = (k, 1) :=
    clampPos_of_valid _ _ _ h1 (by rw [hcount]; omega) (by omega) (by omega)
  refine ⟨⟨⟨L.take (k - 1) ++ [L.getD k []] ++ L.drop (k + 1), eol⟩, (k, 1)⟩, ?_, ?_, ?_, rfl⟩
  · simp only [deleteLine, hedit, setPosition, hclamp2]
  · exact hcount
  · rw [getLineContent, if_pos ⟨h1, by rw [show lineCount (({ model := ⟨L.take (k - 1) ++ [L.getD k []] ++ L.drop (k + 1), eol⟩, caret := (k, 1) } : EditorState)).model = L.length - 1 from hcount]; omega⟩]
    show Except.ok (((L.take (k - 1) ++ [L.getD k []]) ++ L.drop (k + 1)).getD (k - 1) []) =
      Except.ok (L.getD k [])
    rw [List.append_assoc,
      List.getD_append_right _ _ _ _ (by simp only [List.length_take]; omega)]
    simp only [List.length_take]
    rw [show k - 1 - min (k - 1) L.length = 0 by omega]
    rfl

theorem c4_deleteLine_witness :
    ∃ st2, deleteLine sample3 2 = .ok st2 ∧
      lineCount st2.model = lineCount sample3.model - 1 ∧
      getLineContent st2 2 = .ok (sample3.model.lines.getD 2 []) ∧
      st2.caret = (2, 1) :=
  c4_deleteLine sample3 2 (by decide) (by decide) (by decide)

/-- Claim C5: `setValue(getValue())` leaves the buffer unchanged —
`getValue` is the LF-normalized content and writing it back is a no-op on
the whole editor state. -/
theorem c5_setValue_getValue (st : EditorState) (hWF : st.model.WF) :
    setValue st (getValue st) = st := by
  obtain ⟨⟨L, eol⟩, car⟩ := st
  obtain ⟨hne, hnt⟩ := hWF
  have hN : 1 ≤ L.length := List.length_pos.mpr hne
  have hLC : lineCount ⟨L, eol⟩ = L.length := rfl
  have hlast : getLineLen ⟨L, eol⟩ L.length = (L.getD (L.length - 1) []).length := rfl
  have hcs : clampPos ⟨L, eol⟩ (1, 1) = (1, 1) :=
    clampPos_of_valid _ _ _ (by omega) (by rw [hLC]; omega) (by omega) (by omega)
  have hce : clampPos ⟨L, eol⟩ (L.length, getLineLen ⟨L, eol⟩ L.length + 1) =
      (L.length, getLineLen ⟨L, eol⟩ L.length + 1) :=
    clampPos_of_valid _ _ _ (by omega) (by rw [hLC]) (by omega) (by omega)
  have hsplit : splitLines (joinWith ['\n'] L) = L := splitLines_joinWith L hne hnt
  simp only [setValue, getValue, TextModel.getValueLF, hLC]
  rw [mkRange_of_le _ _ _ _ (by omega)]
  simp only [applyEdit, validateRange_of_valid _ _ _ _ _ hcs hce, hsplit]
  rw [show getLineLen ⟨L, eol⟩ L.length + 1 - 1 = (L.getD (L.length - 1) []).length from rfl]
  rw [List.drop_length (L.getD (L.length - 1) [])]
  simp only [Nat.sub_self, List.take_zero, List.drop_zero, List.nil_append]
  rw [List.drop_length L, List.append_nil, withFlanks_nil_nil L hne]

theorem c5_setValue_getValue_witness :
    setValue sample3 (getValue sample3) = sample3 :=
  c5_setValue_getValue sample3 (by decide)

/-- Claim C1 counterexample: on buffer "a\nb\nc", `replaceLines(1,2,"x")`
yields buffer "x\nc" but leaves the caret at `(2, 2)`, not at the end of
the replaced region, which is `(1, 2)`. -/
theorem c1_counterexample :
    replaceLines sample3 1 2 (strT "x") = .ok
      { model := { lines := [strT "x", strT "c"], crlf := false }, caret := (2, 2) } ∧
    insertionEnd 1 (strT "x") = (1, 2) ∧
    ((2 : Nat), (2 : Nat)) ≠ ((1 : Nat), (2 : Nat)) :=
  ⟨rfl, rfl, by decide⟩

/-- Claim C1 (amended): `replaceLine(line, text)` with terminator-free text
sets the caret to `(line, text.length + 1)` — the end of the inserted text;
`replaceLines(lineStart, lineEnd, text)` sets the caret to `(lineEnd, L+1)`
where `L` is the pre-edit length of `lineEnd`, validated against the new
buffer (a line beyond the new line count snaps to the end of the last
line); on buffer "a\nb\nc", `replaceLines(1,2,"x\ny")` yields "x\ny\nc"
with the caret at `(2, 2)`. -/
theorem c1_caret_amended (st : EditorState) (lineStart line lineEnd : Nat) (text : Text) :
    (1 ≤ line → line ≤ lineCount st.model → noTerm text →
      replaceLine st line text = .ok
        { model := { st.model with
            lines := st.model.lines.take (line - 1) ++ [text] ++ st.model.lines.drop line },
          caret := (line, text.length + 1) }) ∧
    (1 ≤ lineEnd → lineEnd ≤ lineCount st.model →
      ∃ st2, replaceLines st lineStart lineEnd text = .ok st2 ∧
        st2.caret = clampPos st2.model (lineEnd, getLineLen st.model lineEnd + 1)) ∧
    replaceLines sample3 1 2 (strT "x\ny") = .ok
      { model := { lines := [strT "x", strT "y", strT "c"], crlf := false },
        caret := (2, 2) } := by
  obtain ⟨⟨L, eol⟩, car⟩ := st
  refine ⟨?_, ?_, rfl⟩
  · intro h1 h2 hnt
    have h2' : line ≤ L.length := h2
    have hLC : lineCount ⟨L, eol⟩ = L.length := rfl
    have hok : getLineLengthE ⟨L, eol⟩ line = .ok (getLineLen ⟨L, eol⟩ line) := by
      rw [getLineLengthE, if_pos ⟨h1, h2⟩]
    have hcs : clampPos ⟨L, eol⟩ (line, 1) = (line, 1) :=
      clampPos_of_valid _ _ _ h1 (by rw [hLC]; omega) (by omega) (by omega)
    have hce : clampPos ⟨L, eol⟩ (line, getLineLen ⟨L, eol⟩ line + 1) =
        (line, getLineLen ⟨L, eol⟩ line + 1) :=
      clampPos_of_valid _ _ _ h1 (by rw [hLC]; omega) (by omega) (by omega)
    have hedit : applyEdit ⟨L, eol⟩ (mkRange line 1 line (getLineLen ⟨L, eol⟩ line + 1)) text =
        ⟨L.take (line - 1) ++ [text] ++ L.drop line, eol⟩ := by
      rw [mkRange_of_le _ _ _ _ (Or.inr ⟨rfl, by omega⟩)]
      simp only [applyEdit, validateRange_of_valid _ _ _ _ _ hcs hce,
        splitLines_single text hnt]
      rw [show getLineLen ⟨L, eol⟩ line + 1 - 1 = (L.getD (line - 1) []).length from rfl]
      rw [List.drop_length (L.getD (line - 1) [])]
      simp [withFlanks]
    have hpre : (L.take (line - 1)).length = line - 1 := by
      simp only [List.length_take]
      omega
    have hclamp2 : clampPos ⟨L.take (line - 1) ++ [text] ++ L.drop line, eol⟩
        (line, text.length + 1) = (line, text.length + 1) := by
      have hcnt : lineCount (⟨L.take (line - 1) ++ [text] ++ L.drop line, eol⟩ : TextModel) =
          L.length := by
        simp only [lineCount, List.length_append, List.length_take, List.length_cons,
          List.length_nil, List.length_drop]
        omega
      have hmid : getLineLen (⟨L.take (line - 1) ++ [text] ++ L.drop line, eol⟩ : TextModel)
          line = text.length := by
        show (((L.take (line - 1) ++ [text]) ++ L.drop line).getD (line - 1) []).length = _
        rw [List.append_assoc,
          List.getD_append_right _ _ _ _ (by simp only [List.length_take]; omega), hpre]
        rw [show line - 1 - (line - 1) = 0 by omega]
        rfl
      exact clampPos_of_valid _ _ _ h1 (by rw [hcnt]; omega) (by omega) (by rw [hmid])
    simp only [replaceLine, hok, exceptBind_ok, setPosition, hedit, hclamp2]
    rfl
  · intro h1 h2
    have hok : getLineLengthE ⟨L, eol⟩ lineEnd = .ok (getLineLen ⟨L, eol⟩ lineEnd) := by
      rw [getLineLengthE, if_pos ⟨h1, h2⟩]
    refine ⟨setPosition
      { model := applyEdit ⟨L, eol⟩
          (mkRange lineStart 1 lineEnd (getLineLen ⟨L, eol⟩ lineEnd + 1)) text,
        caret := car }
      (lineEnd, getLineLen ⟨L, eol⟩ lineEnd + 1), ?_, rfl⟩
    simp only [replaceLines, hok, exceptBind_ok]
    rfl

theorem c1_caret_amended_witness :
    replaceLine sample3 2 (strT "zz") = .ok
      { model := { sample3.model with
          lines := sample3.model.lines.take 1 ++ [strT "zz"] ++ sample3.model.lines.drop 2 },
        caret := (2, 3) } ∧
    ∃ st2, replaceLines sample3 1 2 (strT "q") = .ok st2 ∧
      st2.caret = clampPos st2.model (2, getLineLen sample3.model 2 + 1) :=
  ⟨((c1_caret_amended sample3 1 2 2 (strT "zz")).1 (by decide) (by decide) (by decide)),
    ((c1_caret_amended sample3 1 2 2 (strT "q")).2.1 (by decide) (by decide))⟩

theorem splitSeq_ne_nil (p c : Text) : splitSeq p c ≠ [] := by
  cases c with
  | nil => simp [splitSeq]
  | cons ch cs =>
    rw [splitSeq]
    split <;> simp [consHead_ne_nil]

theorem joinWith_consHead (sep : Text) (c : Char) (S : List Text) :
    joinWith sep (consHead c S) = c :: joinWith sep S := by
  cases S with
  | nil => rfl
  | cons s ss =>
    cases ss with
    | nil => rfl
    | cons s2 ss2 => simp [consHead, joinWith]

theorem prefix_trans_aux {α : Type} {a b c : List α} (h1 : a <+: b) (h2 : b <+: c) :
    a <+: c := by
  obtain ⟨t1, ht1⟩ := h1
  obtain ⟨t2, ht2⟩ := h2
  exact ⟨t1 ++ t2, by rw [← List.append_assoc, ht1, ht2]⟩

theorem infix_of_cons_tail {α : Type} {p s : List α} {a : α}
    (h : p <:+: s) : p <:+: a :: s := by
  obtain ⟨u, t, hut⟩ := h
  exact ⟨a :: u, t, by simp [← hut]⟩

/-- The three properties of the `replaceAll` scan: the chunks joined with
the pattern give back the text, the head chunk is a prefix of the text, and
no chunk contains an occurrence of the pattern. -/
theorem splitSeq_spec (p : Text) (hp : p ≠ []) : ∀ (c : Text),
    joinWith p (splitSeq p c) = c ∧
    (∀ l ls, splitSeq p c = l :: ls → l <+: c) ∧
    (∀ u ∈ splitSeq p c, ¬ p <:+: u) := by
  have base : joinWith p (splitSeq p []) = [] ∧
      (∀ l ls, splitSeq p [] = l :: ls → l <+: []) ∧
      (∀ u ∈ splitSeq p [], ¬ p <:+: u) := by
    refine ⟨by simp [splitSeq, joinWith], ?_, ?_⟩
    · intro l ls h
      simp only [splitSeq] at h
      cases h
      exact ⟨[], rfl⟩
    · intro u hu
      simp only [splitSeq, List.mem_singleton] at hu
      subst hu
      intro hinf
      exact hp (by simpa using hinf)
  have main : ∀ n (c : Text), c.length ≤ n →
      joinWith p (splitSeq p c) = c ∧
      (∀ l ls, splitSeq p c = l :: ls → l <+: c) ∧
      (∀ u ∈ splitSeq p c, ¬ p <:+: u) := by
    intro n
    induction n with
    | zero =>
      intro c hc
      rw [List.eq_nil_of_length_eq_zero (Nat.le_zero.mp hc)]
      exact base
    | succ n ih =>
      intro c hc
      cases c with
      | nil => exact base
      | cons ch cs =>
        by_cases hb : List.isPrefixOf p (ch :: cs)
        · rw [splitSeq, if_pos ⟨hp, hb⟩]
          have hdrop : (cs.drop (p.length - 1)).length ≤ n := by
            have := List.length_drop (p.length - 1) cs
            simp only [List.length_cons] at hc
            omega
          obtain ⟨ih1, ih2, ih3⟩ := ih (cs.drop (p.length - 1)) hdrop
          have hrest : p ++ cs.drop (p.length - 1) = ch :: cs := by
            have hpre : p <+: ch :: cs := by
              rwa [ List.isPrefixOf_iff_prefix] at hb
            obtain ⟨t, ht⟩ := hpre
            have hlen : 1 ≤ p.length := by
              cases p with
              | nil => exact absurd rfl hp
              | cons a as => simp
            have hteq : t = cs.drop (p.length - 1) := by
              have h1 : List.drop p.length (p ++ t) = t := List.drop_left p t
              rw [ht] at h1
              rw [← h1, show p.length = (p.length - 1) + 1 by omega,
                List.drop_succ_cons]
              congr 1

            rw [← hteq, ht]
          obtain ⟨s, ss, hS⟩ := List.exists_cons_of_ne_nil
            (splitSeq_ne_nil p (cs.drop (p.length - 1)))
          refine ⟨?_, ?_, ?_⟩
          · rw [hS, show joinWith p ([] :: s :: ss) = [] ++ p ++ joinWith p (s :: ss)
              from rfl, ← hS, ih1]
            simpa using hrest
          · intro l ls h
            rw [hS] at h
            cases h
            exact ⟨ch :: cs, rfl⟩
          · intro u hu
            rcases List.mem_cons.mp hu with hu0 | huS
            · subst hu0
              intro hinf
              exact hp (by simpa using hinf)
            · exact ih3 u huS
        · rw [splitSeq, if_neg (fun hcond => hb hcond.2)]
          have hcs : cs.length ≤ n := by
            simp only [List.length_cons] at hc
            omega
          obtain ⟨ih1, ih2, ih3⟩ := ih cs hcs
          obtain ⟨s, ss, hS⟩ := List.exists_cons_of_ne_nil (splitSeq_ne_nil p cs)
          have hhead : s <+: cs := ih2 s ss hS
          refine ⟨?_, ?_, ?_⟩
          · rw [joinWith_consHead, ih1]
          · intro l ls h
            rw [hS] at h
            simp only [consHead] at h
            cases h
            obtain ⟨t, ht⟩ := hhead
            exact ⟨t, by simp [ht]⟩
          · intro u hu
            rw [hS] at hu
            simp only [consHead, List.mem_cons] at hu
            rcases hu with hu0 | huS
            · subst hu0
              intro hinf
              rcases List.infix_cons_iff.mp hinf with hpre | htail
              · apply hb
                rw [ List.isPrefixOf_iff_prefix]
                refine prefix_trans_aux hpre ?_
                obtain ⟨t, ht⟩ := hhead
                exact ⟨t, by simp [ht]⟩
              · exact ih3 s (by rw [hS]; simp) htail
            · exact ih3 u (by rw [hS]; simp [huS])
  intro c
  exact main c.length c le_rfl

theorem getSubstitution_cons_ne (m b a : Text) (c : Char) (rest : Text)
    (h : c ≠ '$') :
    getSubstitution m b a (c :: rest) = c :: getSubstitution m b a rest := by
  conv_lhs => unfold getSubstitution
  split <;> simp_all

theorem getSubstitution_noDollar (m b a t : Text) (h : '$' ∉ t) :
    getSubstitution m b a t = t := by
  induction t with
  | nil => rfl
  | cons c rest ih =>
    simp only [List.mem_cons, not_or] at h
    rw [getSubstitution_cons_ne m b a c rest (fun hc => h.1 hc.symm), ih h.2]

theorem joinSubs_noDollar (p v : Text) (hv : '$' ∉ v) :
    ∀ (chunks : List Text) (pre : Text), joinSubs p v pre chunks = joinWith v chunks := by
  intro chunks
  induction chunks with
  | nil => intro pre; rfl
  | cons u us ih =>
    intro pre
    cases us with
    | nil => rfl
    | cons u2 us2 =>
      show u ++ getSubstitution p (pre ++ u) (joinWith p (u2 :: us2)) v ++
        joinSubs p v (pre ++ u ++ p) (u2 :: us2) = _
      rw [getSubstitution_noDollar _ _ _ _ hv, ih (pre ++ u ++ p)]
      rfl

theorem replaceFirstAux_no_occurrence (p v : Text) :
    ∀ (c pre : Text), ¬ p <:+: c → replaceFirstAux p v pre c = c := by
  have hpre : ∀ (l : Text), p <+: l → p <:+: l := by
    intro l hl
    obtain ⟨t, ht⟩ := hl
    exact ⟨[], t, by simpa using ht⟩
  intro c
  induction c with
  | nil =>
    intro pre h
    simp only [replaceFirstAux]
    rw [if_neg (fun hb => h (hpre [] (by rwa [ List.isPrefixOf_iff_prefix] at hb)))]
  | cons a cs ih =>
    intro pre h
    simp only [replaceFirstAux]
    rw [if_neg (fun hb => h (hpre _ (by rwa [ List.isPrefixOf_iff_prefix] at hb))),
      ih (pre ++ [a]) (fun htail => h (infix_of_cons_tail htail))]

theorem replaceFirst_no_occurrence (p v c : Text) (h : ¬ p <:+: c) :
    replaceFirst p v c = c := replaceFirstAux_no_occurrence p v c [] h

theorem replaceFirstAux_first_occurrence (p v : Text) :
    ∀ (c : Text), p <:+: c → ∀ (pre : Text), ∃ a b, c = a ++ p ++ b ∧
      replaceFirstAux p v pre c = a ++ getSubstitution p (pre ++ a) b v ++ b ∧
      ∀ a2 b2, c = a2 ++ p ++ b2 → a.length ≤ a2.length := by
  intro c
  induction c with
  | nil =>
    intro h pre
    have hpnil : p = [] := by simpa using h
    subst hpnil
    refine ⟨[], [], rfl, ?_, fun a2 b2 h2 => by simp⟩
    simp only [replaceFirstAux]
    rw [if_pos (show List.isPrefixOf ([] : Text) [] = true from rfl)]
    simp
  | cons ch cs ih =>
    intro h pre
    by_cases hb : List.isPrefixOf p (ch :: cs)
    · have hp2 : p <+: ch :: cs := by rwa [ List.isPrefixOf_iff_prefix] at hb
      obtain ⟨t, ht⟩ := hp2
      refine ⟨[], t, by simpa using ht.symm, ?_, fun a2 b2 h2 => by simp⟩
      simp only [replaceFirstAux]
      rw [if_pos hb, ← ht, List.drop_left]
      simp
    · have hcs : p <:+: cs := by
        rcases List.infix_cons_iff.mp h with hp2 | hi
        · exact absurd (by rwa [ List.isPrefixOf_iff_prefix]) hb
        · exact hi
      obtain ⟨a, b, hab, hrepl, hmin⟩ := ih hcs (pre ++ [ch])
      refine ⟨ch :: a, b, by simp [hab], ?_, ?_⟩
      · simp only [replaceFirstAux]
        rw [if_neg hb, hrepl, show (pre ++ [ch]) ++ a = pre ++ (ch :: a) by simp]
        simp
      · intro a2 b2 h2
        cases a2 with
        | nil =>
          exfalso
          apply hb
          rw [ List.isPrefixOf_iff_prefix]
          simp only [List.nil_append] at h2
          exact ⟨b2, h2.symm⟩
        | cons x xs =>
          simp only [List.cons_append, List.cons.injEq] at h2
          simp only [List.length_cons]
          exact Nat.succ_le_succ (hmin xs b2 h2.2)

theorem replaceFirst_first_occurrence (p v c : Text) (h : p <:+: c) :
    ∃ a b, c = a ++ p ++ b ∧
      replaceFirst p v c = a ++ getSubstitution p a b v ++ b ∧
      ∀ a2 b2, c = a2 ++ p ++ b2 → a.length ≤ a2.length := by
  obtain ⟨a, b, h1, h2, h3⟩ := replaceFirstAux_first_occurrence p v c h []
  refine ⟨a, b, h1, ?_, h3⟩
  rw [replaceFirst, h2]
  simp

theorem replaceFirst_nilGeneral (v c : Text) :
    replaceFirst [] v c = getSubstitution [] [] c v ++ c := by
  cases c with
  | nil =>
    show (if List.isPrefixOf ([] : Text) [] then getSubstitution [] [] [] v else []) = _
    simp [List.isPrefixOf]
  | cons ch cs => rfl

theorem replaceAllAux_eq_joinSubs (p v : Text) (hp : p ≠ []) :
    ∀ (n : Nat) (c : Text), c.length ≤ n → ∀ (pre : Text),
      replaceAllAux p v pre c = joinSubs p v pre (splitSeq p c) := by
  intro n
  induction n with
  | zero =>
    intro c hc pre
    rw [List.eq_nil_of_length_eq_zero (Nat.le_zero.mp hc)]
    rw [show splitSeq p [] = [[]] by rw [splitSeq], replaceAllAux]
    rfl
  | succ n ihn =>
    intro c hc pre
    cases c with
    | nil =>
      rw [show splitSeq p [] = [[]] by rw [splitSeq], replaceAllAux]
      rfl
    | cons ch cs =>
      by_cases hb : List.isPrefixOf p (ch :: cs)
      · rw [replaceAllAux, if_pos ⟨hp, hb⟩, splitSeq, if_pos ⟨hp, hb⟩]
        obtain ⟨s, ss, hS⟩ := List.exists_cons_of_ne_nil
          (splitSeq_ne_nil p (cs.drop (p.length - 1)))
        have hjoin : joinWith p (splitSeq p (cs.drop (p.length - 1))) =
            cs.drop (p.length - 1) := (splitSeq_spec p hp _).1
        have hdrop : (cs.drop (p.length - 1)).length ≤ n := by
          have := List.length_drop (p.length - 1) cs
          simp only [List.length_cons] at hc
          omega
        rw [hS]
        show getSubstitution p pre (cs.drop (p.length - 1)) v ++
            replaceAllAux p v (pre ++ p) (cs.drop (p.length - 1)) =
          [] ++ getSubstitution p (pre ++ []) (joinWith p (s :: ss)) v ++
            joinSubs p v (pre ++ [] ++ p) (s :: ss)
        rw [← hS, hjoin, ihn _ hdrop (pre ++ p)]
        simp
      · rw [replaceAllAux, if_neg (fun hco => hb hco.2), splitSeq,
          if_neg (fun hco => hb hco.2)]
        obtain ⟨s, ss, hS⟩ := List.exists_cons_of_ne_nil (splitSeq_ne_nil p cs)
        have hcs2 : cs.length ≤ n := by
          simp only [List.length_cons] at hc
          omega
        rw [hS, consHead, ihn cs hcs2 (pre ++ [ch]), hS]
        cases ss with
        | nil => rfl
        | cons s2 ss2 =>
          show ch :: joinSubs p v (pre ++ [ch]) (s :: s2 :: ss2) =
            (ch :: s) ++ getSubstitution p (pre ++ (ch :: s)) (joinWith p (s2 :: ss2)) v ++
              joinSubs p v (pre ++ (ch :: s) ++ p) (s2 :: ss2)
          rw [show joinSubs p v (pre ++ [ch]) (s :: s2 :: ss2) =
            s ++ getSubstitution p ((pre ++ [ch]) ++ s) (joinWith p (s2 :: ss2)) v ++
              joinSubs p v ((pre ++ [ch]) ++ s ++ p) (s2 :: ss2) from rfl]
          rw [show (pre ++ [ch]) ++ s = pre ++ (ch :: s) by simp]
          simp

theorem replaceAllEmptyAux_noDollar (v : Text) (hv : '$' ∉ v) :
    ∀ (c pre : Text), replaceAllEmptyAux v pre c = v ++ c.flatMap (fun ch => ch :: v) := by
  intro c
  induction c with
  | nil =>
    intro pre
    simp only [replaceAllEmptyAux]
    rw [getSubstitution_noDollar _ _ _ _ hv]
    simp
  | cons ch cs ih =>
    intro pre
    simp only [replaceAllEmptyAux]
    rw [getSubstitution_noDollar _ _ _ _ hv, ih (pre ++ [ch])]
    simp

/-- Claim C6: `replaceValue(p, v, false)` writes back, through a single
`setValue` over the whole buffer, the content with at most the first
occurrence of `p` replaced (by the GetSubstitution expansion of `v`, as
JavaScript `replace` does); `replaceValue(p, v, true)` writes back the
content with every occurrence replaced: the content splits into chunks
free of `p` joined by `p`, and the result joins the same chunks with the
per-match expansions of `v` (plainly `v` when `v` has no dollar escape);
the empty pattern matches at the start (`replace`) or at every position
(`replaceAll`), as in JavaScript. -/
theorem c6_replaceValue (st : EditorState) (p v : Text) :
    replaceValue st p v false = setValue st (replaceFirst p v st.model.getValueRaw) ∧
    replaceValue st p v true = setValue st (replaceAllStr p v st.model.getValueRaw) ∧
    (¬ p <:+: st.model.getValueRaw →
      replaceFirst p v st.model.getValueRaw = st.model.getValueRaw) ∧
    (p <:+: st.model.getValueRaw → ∃ a b,
      st.model.getValueRaw = a ++ p ++ b ∧
      replaceFirst p v st.model.getValueRaw = a ++ getSubstitution p a b v ++ b ∧
      ∀ a2 b2, st.model.getValueRaw = a2 ++ p ++ b2 → a.length ≤ a2.length) ∧
    (p ≠ [] →
      joinWith p (splitSeq p st.model.getValueRaw) = st.model.getValueRaw ∧
      replaceAllStr p v st.model.getValueRaw =
        joinSubs p v [] (splitSeq p st.model.getValueRaw) ∧
      (∀ u ∈ splitSeq p st.model.getValueRaw, ¬ p <:+: u) ∧
      ('$' ∉ v → replaceAllStr p v st.model.getValueRaw =
        joinWith v (splitSeq p st.model.getValueRaw))) ∧
    (p = [] →
      replaceFirst p v st.model.getValueRaw =
        getSubstitution [] [] st.model.getValueRaw v ++ st.model.getValueRaw ∧
      ('$' ∉ v →
        replaceFirst p v st.model.getValueRaw = v ++ st.model.getValueRaw ∧
        replaceAllStr p v st.model.getValueRaw =
          v ++ st.model.getValueRaw.flatMap (fun ch => ch :: v))) := by
  refine ⟨rfl, rfl, replaceFirst_no_occurrence p v _,
    replaceFirst_first_occurrence p v _, ?_, ?_⟩
  · intro hp
    obtain ⟨h1, _, h3⟩ := splitSeq_spec p hp st.model.getValueRaw
    refine ⟨h1, ?_, h3, ?_⟩
    · rw [replaceAllStr, if_neg hp]
      exact replaceAllAux_eq_joinSubs p v hp _ _ le_rfl []
    · intro hv
      rw [replaceAllStr, if_neg hp, replaceAllAux_eq_joinSubs p v hp _ _ le_rfl [],
        joinSubs_noDollar p v hv _ []]
  · intro hp
    subst hp
    refine ⟨replaceFirst_nilGeneral v _, fun hv => ⟨?_, ?_⟩⟩
    · rw [replaceFirst_nilGeneral v _, getSubstitution_noDollar _ _ _ _ hv]
    · rw [replaceAllStr, if_pos rfl]
      exact replaceAllEmptyAux_noDollar v hv _ []

theorem c6_replaceValue_witness :
    replaceFirst (strT "zz") (strT "X") sample3.model.getValueRaw =
      sample3.model.getValueRaw ∧
    joinWith (strT "b") (splitSeq (strT "b") sample3.model.getValueRaw) =
      sample3.model.getValueRaw ∧
    replaceAllStr (strT "b") (strT "X") sample3.model.getValueRaw =
      joinWith (strT "X") (splitSeq (strT "b") sample3.model.getValueRaw) :=
  ⟨(c6_replaceValue sample3 (strT "zz") (strT "X")).2.2.1 (by decide),
    ((c6_replaceValue sample3 (strT "b") (strT "X")).2.2.2.2.1 (by decide)).1,
    ((c6_replaceValue sample3 (strT "b") (strT "X")).2.2.2.2.1 (by decide)).2.2.2
      (by decide)⟩

theorem lookup_cons_ne {β : Type} (k pid : Nat) (w : β) (rest : List (Nat × β))
    (h : k ≠ pid) : ((k, w) :: rest).lookup pid = rest.lookup pid := by
  simp only [List.lookup]
  rw [show (pid == k) = false by simp [beq_iff_eq]; exact fun he => h he.symm]

theorem lookup_cons_eq {β : Type} (pid : Nat) (w : β) (rest : List (Nat × β)) :
    ((pid, w) :: rest).lookup pid = some w := by
  simp only [List.lookup, beq_self_eq_true]

theorem lookup_append_fresh (ps : List (Nat × Option Handles)) (pid : Nat)
    (v : Option Handles) (h : ∀ x ∈ ps, x.1 ≠ pid) :
    (ps ++ [(pid, v)]).lookup pid = some v := by
  induction ps with
  | nil => exact lookup_cons_eq pid v []
  | cons a ps ih =>
    obtain ⟨k, w⟩ := a
    rw [List.cons_append, lookup_cons_ne k pid w _ (h (k, w) (by simp))]
    exact ih (fun x hx => h x (by simp [hx]))

theorem lookup_resolveP_pending (ps : List (Nat × Option Handles)) (pid : Nat)
    (x : Handles) (h : ps.lookup pid = some none) :
    (resolveP ps pid x).lookup pid = some (some x) := by
  induction ps with
  | nil => simp [List.lookup] at h
  | cons a ps ih =>
    obtain ⟨k, w⟩ := a
    by_cases hk : k = pid
    · subst hk
      rw [lookup_cons_eq] at h
      cases h
      show (((k, none) :: ps).map _).lookup k = _
      simp only [List.map_cons]
      split
      · exact lookup_cons_eq k (some x) _
      · next hc => simp at hc
    · rw [lookup_cons_ne k pid w ps hk] at h
      show ((((k, w) :: ps).map _)).lookup pid = _
      simp only [List.map_cons]
      split
      · next hc => exact absurd hc.1 hk
      · rw [lookup_cons_ne k pid w _ hk]
        exact ih h

theorem lookup_resolveP_resolved (ps : List (Nat × Option Handles)) (pid pid2 : Nat)
    (x h0 : Handles) (h : ps.lookup pid = some (some h0)) :
    (resolveP ps pid2 x).lookup pid = some (some h0) := by
  induction ps with
  | nil => simp [List.lookup] at h
  | cons a ps ih =>
    obtain ⟨k, w⟩ := a
    by_cases hk : k = pid
    · subst hk
      rw [lookup_cons_eq] at h
      cases h
      show (((k, some h0) :: ps).map _).lookup k = _
      simp only [List.map_cons]
      split
      · next hc => exact absurd hc.2 (by simp)
      · exact lookup_cons_eq k (some h0) _
    · rw [lookup_cons_ne k pid w ps hk] at h
      show ((((k, w) :: ps).map _)).lookup pid = _
      simp only [List.map_cons]
      split
      · rw [lookup_cons_ne k pid (some x) _ hk]
        exact ih h
      · rw [lookup_cons_ne k pid w _ hk]
        exact ih h

theorem lookup_resolveP_ne (ps : List (Nat × Option Handles)) (pid pid2 : Nat)
    (x : Handles) (hk : pid2 ≠ pid) :
    (resolveP ps pid2 x).lookup pid = ps.lookup pid := by
  induction ps with
  | nil => rfl
  | cons a ps ih =>
    obtain ⟨k, w⟩ := a
    show ((((k, w) :: ps).map _)).lookup pid = _
    simp only [List.map_cons]
    by_cases hkk : k = pid
    · subst hkk
      split
      · next hc => exact absurd hc.1.symm hk
      · rw [lookup_cons_eq, lookup_cons_eq]
    · split
      · rw [lookup_cons_ne k pid (some x) _ hkk, lookup_cons_ne k pid w ps hkk]
        exact ih
      · rw [lookup_cons_ne k pid w _ hkk, lookup_cons_ne k pid w ps hkk]
        exact ih

theorem whenEditorReady_unbound (s : ModuleState)
    (h : s.monaco = none ∨ s.editor = none) :
    whenEditorReady s = (s.nextPid, { s with
      promises := s.promises ++ [(s.nextPid, none)],
      editorReadyHandlers := s.editorReadyHandlers ++ [(s.nextPid, true)],
      nextPid := s.nextPid + 1 }) := by
  obtain ⟨mo, ed, hs, ps, np⟩ := s
  rcases h with h | h
  · cases mo with
    | some m => simp at h
    | none => cases ed <;> rfl
  · cases ed with
    | some e => simp at h
    | none => cases mo <;> rfl

theorem runHandlers_keeps_resolved (payload : Handles) (hs : List (Nat × Bool))
    (ps : List (Nat × Option Handles)) (pid : Nat) (h0 : Handles)
    (h : ps.lookup pid = some (some h0)) :
    (runEditorReadyHandlers payload hs ps).2.lookup pid = some (some h0) := by
  induction hs generalizing ps with
  | nil => exact h
  | cons hd rest ih =>
    obtain ⟨pid2, once⟩ := hd
    show (runEditorReadyHandlers payload rest (resolveP ps pid2 payload)).2.lookup pid = _
    exact ih _ (lookup_resolveP_resolved ps pid pid2 payload h0 h)

theorem runHandlers_resolves (payload : Handles) (hs : List (Nat × Bool))
    (ps : List (Nat × Option Handles)) (pid : Nat) (b : Bool)
    (hmem : (pid, b) ∈ hs) (hpend : ps.lookup pid = some none) :
    (runEditorReadyHandlers payload hs ps).2.lookup pid = some (some payload) := by
  induction hs generalizing ps with
  | nil => cases hmem
  | cons hd rest ih =>
    obtain ⟨pid2, once⟩ := hd
    show (runEditorReadyHandlers payload rest (resolveP ps pid2 payload)).2.lookup pid = _
    by_cases hk : pid2 = pid
    · subst hk
      exact runHandlers_keeps_resolved payload rest _ pid2 payload
        (lookup_resolveP_pending ps pid2 payload hpend)
    · have hmem2 : (pid, b) ∈ rest := by
        rcases List.mem_cons.mp hmem with he | ht
        · cases he
          exact absurd rfl hk
        · exact ht
      refine ih _ hmem2 ?_
      rw [lookup_resolveP_ne ps pid pid2 payload hk]
      exact hpend

/-- Claim C2: a `whenEditorReady()` call made while both handles are bound
returns a promise created already resolved with that same handle pair; a
call made before binding creates a pending promise, which is resolved with
the EDITOR_READY payload once the MONACO_READY handler binds the handles
and triggers EDITOR_READY. -/
theorem c2_whenEditorReady (s : ModuleState) (payload : Handles) (hWF : PromisesWF s) :
    (∀ m e, s.monaco = some m → s.editor = some e →
      promiseValue (whenEditorReady s).2 (whenEditorReady s).1 =
        some (some ⟨m, e⟩)) ∧
    ((s.monaco = none ∨ s.editor = none) →
      promiseValue (whenEditorReady s).2 (whenEditorReady s).1 = some none ∧
      promiseValue (monacoReadyHandler (whenEditorReady s).2 payload)
        (whenEditorReady s).1 = some (some payload)) := by
  have hfresh : ∀ x ∈ s.promises, x.1 ≠ s.nextPid :=
    fun x hx => Nat.ne_of_lt (hWF x hx)
  constructor
  · intro m e hm he
    show (whenEditorReady s).2.promises.lookup (whenEditorReady s).1 = _
    rw [whenEditorReady]
    simp only [hm, he]
    exact lookup_append_fresh s.promises s.nextPid (some ⟨m, e⟩) hfresh
  · intro hun
    rw [whenEditorReady_unbound s hun]
    constructor
    · show (s.promises ++ [(s.nextPid, none)]).lookup s.nextPid = some none
      exact lookup_append_fresh s.promises s.nextPid none hfresh
    · show (runEditorReadyHandlers payload
        (s.editorReadyHandlers ++ [(s.nextPid, true)])
        (s.promises ++ [(s.nextPid, none)])).2.lookup s.nextPid = some (some payload)
      exact runHandlers_resolves payload _ _ s.nextPid true (by simp)
        (lookup_append_fresh s.promises s.nextPid none hfresh)

theorem c2_whenEditorReady_witness :
    promiseValue (whenEditorReady sBound).2 (whenEditorReady sBound).1 =
      some (some ⟨1, 2⟩) ∧
    (promiseValue (whenEditorReady s0).2 (whenEditorReady s0).1 = some none ∧
      promiseValue (monacoReadyHandler (whenEditorReady s0).2 ⟨7, 8⟩)
        (whenEditorReady s0).1 = some (some ⟨7, 8⟩)) :=
  ⟨(c2_whenEditorReady sBound ⟨7, 8⟩ (by intro x hx; cases hx)).1 1 2 rfl rfl,
    (c2_whenEditorReady s0 ⟨7, 8⟩ (by intro x hx; cases hx)).2 (Or.inl rfl)⟩

theorem whenEditorReady_handles (s : ModuleState) :
    ((whenEditorReady s).2).monaco = s.monaco ∧
    ((whenEditorReady s).2).editor = s.editor := by
  obtain ⟨mo, ed, hs, ps, np⟩ := s
  cases mo <;> cases ed <;> exact ⟨rfl, rfl⟩

theorem isBound_stepM (s : ModuleState) (op : MOp) (h : isBound s) :
    isBound (stepM s op) := by
  obtain ⟨hm, he⟩ := h
  cases op with
  | monacoReady p => exact ⟨rfl, rfl⟩
  | monacoChangeValue => exact ⟨hm, he⟩
  | themeChange => exact ⟨hm, he⟩
  | whenReady =>
    obtain ⟨h1, h2⟩ := whenEditorReady_handles s
    refine ⟨?_, ?_⟩
    · show (((whenEditorReady s).2).monaco).isSome = true
      rw [h1]
      exact hm
    · show (((whenEditorReady s).2).editor).isSome = true
      rw [h2]
      exact he
  | wordWrapChanged =>
    obtain ⟨h1, h2⟩ := whenEditorReady_handles s
    refine ⟨?_, ?_⟩
    · show (((whenEditorReady s).2).monaco).isSome = true
      rw [h1]
      exact hm
    · show (((whenEditorReady s).2).editor).isSome = true
      rw [h2]
      exact he
  | settingFetched =>
    obtain ⟨h1, h2⟩ := whenEditorReady_handles s
    refine ⟨?_, ?_⟩
    · show (((whenEditorReady s).2).monaco).isSome = true
      rw [h1]
      exact hm
    · show (((whenEditorReady s).2).editor).isSome = true
      rw [h2]
      exact he
  | settingChanged keys =>
    obtain ⟨h1, h2⟩ := whenEditorReady_handles s
    refine ⟨?_, ?_⟩
    · show (((whenEditorReady s).2).monaco).isSome = true
      rw [h1]
      exact hm
    · show (((whenEditorReady s).2).editor).isSome = true
      rw [h2]
      exact he

/-- Claim C9: once both handles are bound, every sequence of module
operations leaves them bound — no operation resets them to the unbound
state, and `getMonaco`/`getEditor` keep returning bound handles. -/
theorem c9_handles_persist (s : ModuleState) (ops : List MOp) (h : isBound s) :
    isBound (runM s ops) ∧
    (getMonaco (runM s ops)).isSome = true ∧
    (getEditor (runM s ops)).isSome = true := by
  suffices hb : isBound (runM s ops) from ⟨hb, hb.1, hb.2⟩
  induction ops generalizing s with
  | nil => exact h
  | cons op ops ih => exact ih (stepM s op) (isBound_stepM s op h)

theorem c9_handles_persist_witness :
    isBound (runM sBound [.whenReady, .settingFetched, .monacoReady ⟨3, 4⟩,
      .themeChange, .whenReady]) ∧
    (getMonaco (runM sBound [.whenReady, .settingFetched, .monacoReady ⟨3, 4⟩,
      .themeChange, .whenReady])).isSome = true ∧
    (getEditor (runM sBound [.whenReady, .settingFetched, .monacoReady ⟨3, 4⟩,
      .themeChange, .whenReady])).isSome = true :=
  c9_handles_persist sBound _ ⟨rfl, rfl⟩
